import Mathlib

/-!
Verification of the mm-jinja template-helper library.

The Python sources (`mm_jinja/filters.py`, `mm_jinja/globals.py`) are shallowly
embedded below.  Conventions of the embedding:

* Python numbers (`float`, `Decimal` and the result of `float(...)`) are
  modelled as exact rationals `ℚ`.  `str(float)` is modelled as the exact
  decimal representation with trailing fractional zeros removed and at least
  one fractional digit kept, which is the observable behaviour of CPython's
  `repr` on the magnitudes the filters meet.  CPython's switch to scientific
  notation for very large or tiny magnitudes and its signed zero are not
  modelled; no checked claim depends on them.
* Python objects reaching `empty` / `yes_no` are modelled by the closed
  universe `PyValue` (`None`, `bool`, `int`, `float`, `str`, `list`), which
  covers every case the source distinguishes.
* A raised exception is modelled as `Option.none` (for `nformat`, whose
  error carries no checked content) or `Except.error` (for `raise_`, whose
  message is part of the contract).
* `json.dumps` is modelled with its default options: `ensure_ascii` escaping
  (including surrogate pairs), separators `", "` and `": "`, insertion order
  of the mapping preserved.  Values are the JSON universe `JValue` with exact
  integers for numbers.
-/

namespace MmJinja

attribute [local semireducible] Rat.mul Rat.add Rat.sub Rat.inv

/-! ## Rational / numeric helpers (model of Python float operations) -/

/-- Powers of ten as rationals, for integer (possibly negative) exponents. -/
def pow10 (e : ℤ) : ℚ :=
  if 0 ≤ e then ((10 : ℚ) ^ e.toNat) else 1 / (10 : ℚ) ^ (-e).toNat

/-- Round a rational to the nearest integer, ties to even — the rounding of
Python's `round`. -/
def roundHalfEven (x : ℚ) : ℤ :=
  let f := Rat.floor x
  let r := x - (f : ℚ)
  if r < 1/2 then f
  else if 1/2 < r then f + 1
  else if f % 2 = 0 then f else f + 1

/-- Model of Python `round(x, d)`, returning the rounded value scaled by
`10^d` (an integer), so that no information is lost. -/
def pyRoundScaled (x : ℚ) (d : ℤ) : ℤ := roundHalfEven (x * pow10 d)

/-- Truncation toward zero: Python `int(x)` on a float. -/
def pyTrunc (x : ℚ) : ℤ := if 0 ≤ x then Rat.floor x else -Rat.floor (-x)

/-- Remove trailing `'0'` characters. -/
def stripZeros (l : List Char) : List Char :=
  (l.reverse.dropWhile (fun c => c = '0')).reverse

/-- Model of Python `str(float)` applied to the exact value `n / 10^d`:
sign, integer part, a point, and the fractional digits with their trailing
zeros removed (at least one digit kept, so integers render as `x.0`). -/
def reprScaled (n : ℤ) (d : ℤ) : String :=
  if d ≤ 0 then toString (n * (10 : ℤ) ^ (-d).toNat) ++ ".0"
  else
    let p : Nat := 10 ^ d.toNat
    let m : Nat := n.natAbs
    let ipart : String := toString (m / p)
    let fdigits : String := toString (m % p)
    let padded : List Char := List.replicate (d.toNat - fdigits.length) '0' ++ fdigits.data
    let frac : List Char := stripZeros padded
    let fracS : String := if frac = [] then "0" else String.mk frac
    (if n < 0 then "-" else "") ++ ipart ++ "." ++ fracS

/-! ## Model of Python `float(string)` -/

/-- Numeric value of a list of decimal digit characters. -/
def digitsToNat (l : List Char) : Nat :=
  l.foldl (fun a c => a * 10 + (c.toNat - 48)) 0

def parseAllDigits (l : List Char) : Option Nat :=
  if l ≠ [] ∧ l.all Char.isDigit then some (digitsToNat l) else Option.none

def parseSignedDigits : List Char → Option ℤ
  | '+' :: r => (parseAllDigits r).map (fun n => (n : ℤ))
  | '-' :: r => (parseAllDigits r).map (fun n => -(n : ℤ))
  | r => (parseAllDigits r).map (fun n => (n : ℤ))

def parseExp : List Char → Option ℤ
  | [] => some 0
  | 'e' :: r => parseSignedDigits r
  | 'E' :: r => parseSignedDigits r
  | _ => Option.none

def parseUnsignedFloat (l : List Char) : Option ℚ :=
  let ip := l.takeWhile Char.isDigit
  let r1 := l.dropWhile Char.isDigit
  match r1 with
  | '.' :: r2 =>
    let fp := r2.takeWhile Char.isDigit
    let r3 := r2.dropWhile Char.isDigit
    if ip.isEmpty && fp.isEmpty then Option.none
    else (parseExp r3).map
      (fun e => ((digitsToNat ip : ℚ) + (digitsToNat fp : ℚ) / (10 : ℚ) ^ fp.length) * pow10 e)
  | _ =>
    if ip.isEmpty then Option.none
    else (parseExp r1).map (fun e => (digitsToNat ip : ℚ) * pow10 e)

/-- Whitespace as stripped by Python's `str.strip`. -/
def isSpaceChar (c : Char) : Bool :=
  c = ' ' || c = '\t' || c = '\n' || c = '\r' || c = '\x0b' || c = '\x0c'

/-- Strip leading and trailing whitespace. -/
def trimChars (l : List Char) : List Char :=
  ((l.dropWhile isSpaceChar).reverse.dropWhile isSpaceChar).reverse

/-- Model of Python `float(s)` on a string: optional surrounding whitespace,
optional sign, digits with an optional point and an optional exponent.
(`inf`, `nan` and underscore digit separators are not modelled; the value is
kept exact instead of being rounded to binary64.) -/
def pyFloatParse (s : String) : Option ℚ :=
  match trimChars s.data with
  | '+' :: r => parseUnsignedFloat r
  | '-' :: r => (parseUnsignedFloat r).map (fun q => -q)
  | r => parseUnsignedFloat r

/-! ## `nformat` (filters.py) -/

/-- The values `nformat` accepts: `None`, a string, or a number
(float / Decimal, both modelled as `ℚ`). -/
inductive NValue
  | none
  | str (s : String)
  | num (q : ℚ)
deriving DecidableEq

/-- Python's `value == ""` test as it behaves on `NValue`. -/
def isEmptyStr : NValue → Bool
  | .str s => s == ""
  | _ => false

/-- Python `float(value)` for the values `nformat` can receive:
a number is exact already, a string is parsed; failure is `Option.none`
(a raised `ValueError`). -/
def pyCoerce : NValue → Option ℚ
  | .none => Option.none
  | .str s => pyFloatParse s
  | .num q => some q

/-- The separator insertion of `nformat`'s large branch, exactly as in the
source: enumerate the reversed character sequence, append `sep` after every
position whose index is a nonzero multiple of three, reverse back, join. -/
def groupSep (sep : String) (s : String) : String :=
  String.join ((s.data.reverse.enum.map
    (fun p => String.singleton p.2 ++ (if p.1 ≠ 0 ∧ p.1 % 3 = 0 then sep else ""))).reverse)

/-- `nformat` from `filters.py`.  `Option.none` models a propagated
conversion error; `some s` models the returned string. -/
def nformat (value : NValue) (pre suf sep : String) (hide_zero : Bool) (digits : ℤ) :
    Option String :=
  if value = NValue.none ∨ isEmptyStr value = true then some ""
  else
    match pyCoerce value with
    | Option.none => Option.none
    | some num =>
      if num = 0 then (if hide_zero then some "" else some (pre ++ "0" ++ suf))
      else if 1000 < num then some (pre ++ groupSep sep (toString (pyTrunc num)) ++ suf)
      else some (pre ++ reprScaled (pyRoundScaled num digits) digits ++ suf)

/-! ## `empty` and `yes_no` (filters.py) -/

/-- The universe of Python objects the boolean / emptiness filters
distinguish. -/
inductive PyValue
  | none
  | bool (b : Bool)
  | int (n : ℤ)
  | float (q : ℚ)
  | str (s : String)
  | list (xs : List PyValue)

/-- Python's `value is None` identity test. -/
def isNone : PyValue → Bool
  | .none => true
  | _ => false

/-- Python's `value is True` identity test. -/
def isTrueV : PyValue → Bool
  | .bool true => true
  | _ => false

/-- Python's `value is False` identity test. -/
def isFalseV : PyValue → Bool
  | .bool false => true
  | _ => false

/-- Display form of a float (see `reprScaled`): rounded to 17 decimal
places — exact on every value CPython prints without scientific notation. -/
def reprQ (q : ℚ) : String := reprScaled (pyRoundScaled q 17) 17

/-- A single-quote character as a string (Python `repr` quoting). -/
def quoteChar : String := String.singleton (Char.ofNat 39)

/-- Model of Python `repr` on the `PyValue` universe (string contents are not
re-escaped; no checked claim inspects them). -/
def pyRepr : PyValue → String
  | .none => "None"
  | .bool true => "True"
  | .bool false => "False"
  | .int n => toString n
  | .float q => reprQ q
  | .str s => quoteChar ++ s ++ quoteChar
  | .list xs => "[" ++ String.intercalate ", " (xs.attach.map (fun x => pyRepr x.1)) ++ "]"
termination_by v => sizeOf v
decreasing_by
  have h := List.sizeOf_lt_of_mem x.2
  simp only [PyValue.list.sizeOf_spec]
  omega

/-- Model of Python `str` (as used by f-string interpolation). -/
def pyStr : PyValue → String
  | .str s => s
  | v => pyRepr v

/-- Python `isinstance(value, Sequence)` on the modelled universe. -/
def isSeq : PyValue → Bool
  | .str _ => true
  | .list _ => true
  | _ => false

/-- Python `len` on the modelled sequences. -/
def seqLen : PyValue → Nat
  | .str s => s.length
  | .list xs => xs.length
  | _ => 0

/-- `empty` from `filters.py`: collapse `None` and zero-length sequences to
the empty string, pass everything else through. -/
def empty (value : PyValue) : PyValue :=
  if isNone value then PyValue.str ""
  else if isSeq value && (seqLen value == 0) then PyValue.str ""
  else value

/-- The text and colour `yes_no` interpolates, mirroring the source's
`if`/`elif` chain (the final colour still depends on `is_colored`, applied
in `yes_no` itself). -/
def yesNoTextColor (value : PyValue) (hide_no none_is_false on_off : Bool) :
    String × String :=
  let v := if none_is_false && isNone value then PyValue.bool false else value
  if isTrueV v then ((if on_off then "on" else "yes"), "green")
  else if isFalseV v then
    ((if hide_no then "" else if on_off then "off" else "no"), "red")
  else if isNone v then ("", "black")
  else (pyStr v, "black")

/-- The span markup `yes_no` builds by f-string interpolation. -/
def mkSpan (clr text : String) : String :=
  "<span style=\x27color: " ++ clr ++ ";\x27>" ++ text ++ "</span>"

/-- `yes_no` from `filters.py`. -/
def yes_no (value : PyValue) (is_colored hide_no none_is_false on_off : Bool) : String :=
  let tc := yesNoTextColor value hide_no none_is_false on_off
  mkSpan (if is_colored then tc.2 else "black") tc.1

/-! ## `timestamp` (filters.py) -/

/-- `timestamp` from `filters.py`, parameterised by the external datetime
library (`strftime`, `datetime.fromtimestamp`): a datetime is formatted, an
int is converted first, `None` yields the empty string. -/
def timestamp {DT : Type} (strftime : DT → String → String) (fromtimestamp : ℤ → DT)
    (value : Option (DT ⊕ ℤ)) (format_ : String) : String :=
  match value with
  | some (Sum.inl d) => strftime d format_
  | some (Sum.inr i) => strftime (fromtimestamp i) format_
  | Option.none => ""

/-! ## `raise_` (globals.py) -/

/-- `raise_` from `globals.py`: unconditionally raise `RuntimeError(msg)`.
The result type `Empty` witnesses that no value is ever produced. -/
def raise_ (msg : String) : Except String Empty := Except.error msg

/-! ## `to_json` (filters.py): model of `json.dumps` with default options -/

/-- The JSON-representable values (numbers restricted to exact integers:
floats are outside the embedding's scope).  Objects are ordered key-value
lists, preserving the mapping's iteration order. -/
inductive JValue
  | null
  | bool (b : Bool)
  | int (n : ℤ)
  | str (s : String)
  | arr (xs : List JValue)
  | obj (kvs : List (String × JValue))

/-- Lowercase hexadecimal digit, as `json.dumps` emits in `\u` escapes. -/
def hexDig (n : Nat) : Char :=
  if n < 10 then Char.ofNat (48 + n) else Char.ofNat (87 + n)

def hex4Chars (n : Nat) : List Char :=
  [hexDig (n / 4096 % 16), hexDig (n / 256 % 16), hexDig (n / 16 % 16), hexDig (n % 16)]

def uEsc (n : Nat) : List Char := '\\' :: 'u' :: hex4Chars n

/-- One character escaped as by `json.dumps` with `ensure_ascii=True`:
quote, backslash and the five short escapes, `\uXXXX` for other characters
outside the printable ASCII range (a surrogate pair beyond the BMP). -/
def escChar (c : Char) : List Char :=
  if c = '\\' then ['\\', '\\']
  else if c = '"' then ['\\', '"']
  else if c = '\n' then ['\\', 'n']
  else if c = '\t' then ['\\', 't']
  else if c = '\r' then ['\\', 'r']
  else if c = '\x08' then ['\\', 'b']
  else if c = '\x0c' then ['\\', 'f']
  else if c.toNat < 0x20 || 0x7e < c.toNat then
    if c.toNat < 0x10000 then uEsc c.toNat
    else uEsc (0xd800 + (c.toNat - 0x10000) / 0x400) ++ uEsc (0xdc00 + (c.toNat - 0x10000) % 0x400)
  else [c]

def escString : List Char → List Char
  | [] => []
  | c :: cs => escChar c ++ escString cs

/-- Decimal digit characters of a natural number, most significant first. -/
def natChars (n : Nat) : List Char :=
  if h : n < 10 then [Char.ofNat (48 + n)]
  else natChars (n / 10) ++ [Char.ofNat (48 + n % 10)]
decreasing_by exact Nat.div_lt_self (by omega) (by omega)

/-- Decimal characters of an integer (Python `repr` of an `int`). -/
def intChars (n : ℤ) : List Char :=
  if n < 0 then '-' :: natChars n.natAbs else natChars n.toNat

mutual
/-- `json.dumps` with its default separators `", "` and `": "`, producing
the character list of the JSON text.  The mapping's iteration order is kept
(no key sorting). -/
def dumpsV : JValue → List Char
  | .null => "null".data
  | .bool true => "true".data
  | .bool false => "false".data
  | .int n => intChars n
  | .str s => '"' :: (escString s.data ++ ['"'])
  | .arr [] => ['[', ']']
  | .arr (x :: xs) => '[' :: (dumpsV x ++ (dumpsArrTail xs ++ [']']))
  | .obj [] => ['{', '}']
  | .obj (kv :: kvs) => '{' :: (dumpsKV kv ++ (dumpsObjTail kvs ++ ['}']))
def dumpsArrTail : List JValue → List Char
  | [] => []
  | x :: xs => ',' :: ' ' :: (dumpsV x ++ dumpsArrTail xs)
def dumpsKV : String × JValue → List Char
  | (k, v) => '"' :: (escString k.data ++ ('"' :: ':' :: ' ' :: dumpsV v))
def dumpsObjTail : List (String × JValue) → List Char
  | [] => []
  | kv :: kvs => ',' :: ' ' :: (dumpsKV kv ++ dumpsObjTail kvs)
end

/-- `to_json` from `filters.py`: `json.dumps` applied to a string-keyed
mapping. -/
def to_json (data : List (String × JValue)) : String :=
  String.mk (dumpsV (JValue.obj data))

mutual
/-- Fuel needed to parse each dumped value (used to feed the parser an
ample fuel). -/
def sizeJ : JValue → Nat
  | .null => 1
  | .bool _ => 1
  | .int _ => 1
  | .str _ => 1
  | .arr xs => 2 + sizeArr xs
  | .obj kvs => 2 + sizeObj kvs
def sizeArr : List JValue → Nat
  | [] => 0
  | x :: xs => 1 + sizeJ x + sizeArr xs
def sizeObj : List (String × JValue) → Nat
  | [] => 0
  | (_, v) :: kvs => 1 + sizeJ v + sizeObj kvs
end

/-! ### A standard JSON parser, to state the round-trip -/

def jIsWs (c : Char) : Bool := c = ' ' || c = '\n' || c = '\t' || c = '\r'

def jSkipWs : List Char → List Char
  | c :: cs => if jIsWs c then jSkipWs cs else c :: cs
  | [] => []

def hexValJ (c : Char) : Option Nat :=
  if '0' ≤ c && c ≤ '9' then some (c.toNat - 48)
  else if 'a' ≤ c && c ≤ 'f' then some (c.toNat - 87)
  else if 'A' ≤ c && c ≤ 'F' then some (c.toNat - 55)
  else Option.none

def hex4Val (a b c d : Char) : Option Nat :=
  (hexValJ a).bind fun x =>
    (hexValJ b).bind fun y =>
      (hexValJ c).bind fun z =>
        (hexValJ d).map fun w => ((x * 16 + y) * 16 + z) * 16 + w

def unescChar : Char → Option Char
  | '\\' => some '\\'
  | 'n' => some '\n'
  | 't' => some '\t'
  | 'r' => some '\r'
  | 'b' => some '\x08'
  | 'f' => some '\x0c'
  | '/' => some '/'
  | '"' => some '"'
  | _ => Option.none

/-- Parse a string body after the opening quote, decoding escapes
(including surrogate pairs), up to the closing quote.  The fuel (first
argument) makes the recursion structural; one unit per produced character
suffices. -/
def parseJStr : Nat → List Char → Option (List Char × List Char)
  | 0, _ => Option.none
  | _ + 1, [] => Option.none
  | n + 1, c :: rest =>
    if c = '"' then some ([], rest)
    else if c = '\\' then
      match rest with
      | [] => Option.none
      | e :: rest2 =>
        if e = 'u' then
          match rest2 with
          | a :: b :: c2 :: d2 :: rest3 =>
            match hex4Val a b c2 d2 with
            | Option.none => Option.none
            | some h =>
              if 0xd800 ≤ h ∧ h < 0xdc00 then
                match rest3 with
                | '\\' :: 'u' :: a2 :: b2 :: c3 :: d3 :: rest4 =>
                  match hex4Val a2 b2 c3 d3 with
                  | Option.none => Option.none
                  | some lo =>
                    if 0xdc00 ≤ lo ∧ lo < 0xe000 then
                      (parseJStr n rest4).map
                        (fun p =>
                          (Char.ofNat (0x10000 + (h - 0xd800) * 0x400 + (lo - 0xdc00)) :: p.1,
                            p.2))
                    else Option.none
                | _ => Option.none
              else if 0xdc00 ≤ h ∧ h < 0xe000 then Option.none
              else (parseJStr n rest3).map (fun p => (Char.ofNat h :: p.1, p.2))
          | _ => Option.none
        else
          match unescChar e with
          | Option.none => Option.none
          | some ch => (parseJStr n rest2).map (fun p => (ch :: p.1, p.2))
    else (parseJStr n rest).map (fun p => (c :: p.1, p.2))

def jDigitsVal (l : List Char) : Nat :=
  l.foldl (fun a c => a * 10 + (c.toNat - 48)) 0

def parseJNat (l : List Char) : Option (Nat × List Char) :=
  let ds := l.takeWhile Char.isDigit
  if ds = [] then Option.none else some (jDigitsVal ds, l.dropWhile Char.isDigit)

/-- Parse an integer token (our value universe has integral numbers only). -/
def parseJInt : List Char → Option (ℤ × List Char)
  | [] => Option.none
  | c :: r =>
    if c = '-' then (parseJNat r).map (fun p => (-(p.1 : ℤ), p.2))
    else (parseJNat (c :: r)).map (fun p => ((p.1 : ℤ), p.2))

mutual
def parseJV : Nat → List Char → Option (JValue × List Char)
  | 0, _ => Option.none
  | n + 1, l =>
    match jSkipWs l with
    | [] => Option.none
    | c :: rest =>
      if c = '"' then
        (parseJStr (rest.length + 1) rest).map (fun p => (JValue.str (String.mk p.1), p.2))
      else if c = 't' then
        match rest with
        | 'r' :: 'u' :: 'e' :: r => some (JValue.bool true, r)
        | _ => Option.none
      else if c = 'f' then
        match rest with
        | 'a' :: 'l' :: 's' :: 'e' :: r => some (JValue.bool false, r)
        | _ => Option.none
      else if c = 'n' then
        match rest with
        | 'u' :: 'l' :: 'l' :: r => some (JValue.null, r)
        | _ => Option.none
      else if c = '[' then (parseJItems n rest).map (fun p => (JValue.arr p.1, p.2))
      else if c = '{' then (parseJMembers n rest).map (fun p => (JValue.obj p.1, p.2))
      else if c = '-' || c.isDigit then
        (parseJInt (c :: rest)).map (fun p => (JValue.int p.1, p.2))
      else Option.none
def parseJItems : Nat → List Char → Option (List JValue × List Char)
  | 0, _ => Option.none
  | n + 1, l =>
    match jSkipWs l with
    | [] => Option.none
    | c :: rest =>
      if c = ']' then some ([], rest)
      else
        match parseJV n (c :: rest) with
        | Option.none => Option.none
        | some (v, r1) =>
          match jSkipWs r1 with
          | ',' :: r2 =>
            match parseJItems n r2 with
            | some (xs, r3) => some (v :: xs, r3)
            | Option.none => Option.none
          | ']' :: r2 => some ([v], r2)
          | _ => Option.none
def parseJMembers : Nat → List Char → Option (List (String × JValue) × List Char)
  | 0, _ => Option.none
  | n + 1, l =>
    match jSkipWs l with
    | [] => Option.none
    | c :: rest =>
      if c = '}' then some ([], rest)
      else if c = '"' then
        match parseJStr (rest.length + 1) rest with
        | Option.none => Option.none
        | some (k, r1) =>
          match jSkipWs r1 with
          | ':' :: r2 =>
            match parseJV n r2 with
            | Option.none => Option.none
            | some (v, r3) =>
              match jSkipWs r3 with
              | ',' :: r4 =>
                match parseJMembers n r4 with
                | some (kvs, r5) => some ((String.mk k, v) :: kvs, r5)
                | Option.none => Option.none
              | '}' :: r4 => some ([(String.mk k, v)], r4)
              | _ => Option.none
          | _ => Option.none
      else Option.none
end

/-- A remainder that cannot extend an integer token: empty or not starting
with a digit. -/
def noDigitHead : List Char → Bool
  | [] => true
  | c :: _ => !c.isDigit

/-- Parse a complete JSON document (the fuel is ample for any input). -/
def jparse (s : String) : Option JValue :=
  match parseJV (2 * s.data.length + 2) s.data with
  | some (v, r) => if jSkipWs r = [] then some v else Option.none
  | Option.none => Option.none

/-! ## Shared lemmas -/

theorem pyFloatParse_empty : pyFloatParse "" = Option.none := by decide

/-- If a value coerces, `nformat` reaches the numeric branching on it. -/
theorem nformat_coerced (v : NValue) (q : ℚ) (pre suf sep : String) (hz : Bool) (d : ℤ)
    (hc : pyCoerce v = some q) :
    nformat v pre suf sep hz d =
      (if q = 0 then (if hz then some "" else some (pre ++ "0" ++ suf))
       else if 1000 < q then some (pre ++ groupSep sep (toString (pyTrunc q)) ++ suf)
       else some (pre ++ reprScaled (pyRoundScaled q d) d ++ suf)) := by
  have hv : ¬(v = NValue.none ∨ isEmptyStr v = true) := by
    rintro (rfl | he)
    · simp [pyCoerce] at hc
    · cases v with
      | str s =>
        simp only [isEmptyStr, beq_iff_eq] at he
        subst he
        rw [show pyCoerce (NValue.str "") = pyFloatParse "" from rfl,
          pyFloatParse_empty] at hc
        exact Option.noConfusion hc
      | none => simp [pyCoerce] at hc
      | num q' => simp [isEmptyStr] at he
  rw [nformat, if_neg hv, hc]

theorem dropWhile_head_false {p : Char → Bool} :
    ∀ {l x xs}, List.dropWhile p l = x :: xs → p x = false := by
  intro l
  induction l with
  | nil => intro x xs h; exact List.noConfusion h
  | cons c t ih =>
    intro x xs h
    rw [List.dropWhile_cons] at h
    by_cases hc : p c = true
    · rw [if_pos hc] at h; exact ih h
    · rw [if_neg hc] at h
      cases h
      exact Bool.eq_false_iff.mpr hc

/-- A stripped digit list is empty or does not end in `'0'`. -/
theorem stripZeros_getLast (l : List Char) :
    stripZeros l = [] ∨ (stripZeros l).getLast? ≠ some '0' := by
  rw [stripZeros]
  cases hm : l.reverse.dropWhile (fun c => c = '0') with
  | nil => exact Or.inl rfl
  | cons y ys =>
    right
    rw [List.getLast?_reverse, List.head?_cons]
    intro hy
    have := dropWhile_head_false hm
    rw [Option.some.injEq] at hy
    rw [hy] at this
    simp at this

/-! ## Round-trip lemmas for the JSON model -/

theorem hexValJ_hexDig : ∀ k, k < 16 → hexValJ (hexDig k) = some k := by decide

theorem hex4Val_encode (n : Nat) (h : n < 65536) :
    hex4Val (hexDig (n / 4096 % 16)) (hexDig (n / 256 % 16))
      (hexDig (n / 16 % 16)) (hexDig (n % 16)) = some n := by
  rw [hex4Val, hexValJ_hexDig _ (by omega), hexValJ_hexDig _ (by omega),
    hexValJ_hexDig _ (by omega), hexValJ_hexDig _ (by omega)]
  simp only [Option.some_bind, Option.map_some', Option.some.injEq]
  omega

theorem char_bounds (c : Char) : c.toNat < 0xd800 ∨ (0xdfff < c.toNat ∧ c.toNat < 0x110000) :=
  c.valid

/-- One unfolding step of `parseJStr` at a `\u` escape (definitional). -/
theorem parseJStr_u (n : Nat) (a b c2 d2 : Char) (rest3 : List Char) :
    parseJStr (n + 1) ('\\' :: 'u' :: a :: b :: c2 :: d2 :: rest3) =
      (match hex4Val a b c2 d2 with
      | Option.none => Option.none
      | some h =>
        if 0xd800 ≤ h ∧ h < 0xdc00 then
          match rest3 with
          | '\\' :: 'u' :: a2 :: b2 :: c3 :: d3 :: rest4 =>
            match hex4Val a2 b2 c3 d3 with
            | Option.none => Option.none
            | some lo =>
              if 0xdc00 ≤ lo ∧ lo < 0xe000 then
                (parseJStr n rest4).map
                  (fun p =>
                    (Char.ofNat (0x10000 + (h - 0xd800) * 0x400 + (lo - 0xdc00)) :: p.1, p.2))
              else Option.none
          | _ => Option.none
        else if 0xdc00 ≤ h ∧ h < 0xe000 then Option.none
        else (parseJStr n rest3).map (fun p => (Char.ofNat h :: p.1, p.2))) := by
  rw [parseJStr.eq_def]
  rfl

/-- Parsing one escaped-and-continued character peels it back off. -/
theorem parseJStr_escChar (n : Nat) (c : Char) (l : List Char) :
    parseJStr (n + 1) (escChar c ++ l) = (parseJStr n l).map (fun p => (c :: p.1, p.2)) := by
  rw [escChar]
  by_cases h1 : c = '\\'
  · subst h1
    rw [parseJStr.eq_def]; rfl
  rw [if_neg h1]
  by_cases h2 : c = '"'
  · subst h2
    rw [parseJStr.eq_def]; rfl
  rw [if_neg h2]
  by_cases h3 : c = '\n'
  · subst h3
    rw [parseJStr.eq_def]; rfl
  rw [if_neg h3]
  by_cases h4 : c = '\t'
  · subst h4
    rw [parseJStr.eq_def]; rfl
  rw [if_neg h4]
  by_cases h5 : c = '\r'
  · subst h5
    rw [parseJStr.eq_def]; rfl
  rw [if_neg h5]
  by_cases h6 : c = '\x08'
  · subst h6
    rw [parseJStr.eq_def]; rfl
  rw [if_neg h6]
  by_cases h7 : c = '\x0c'
  · subst h7
    rw [parseJStr.eq_def]; rfl
  rw [if_neg h7]
  by_cases h8 : (decide (c.toNat < 0x20) || decide (0x7e < c.toNat)) = true
  · rw [if_pos h8]
    have hb := char_bounds c
    by_cases h9 : c.toNat < 0x10000
    · rw [if_pos h9]
      show parseJStr (n + 1) ('\\' :: 'u' :: _ :: _ :: _ :: _ :: l) = _
      simp only [parseJStr_u, hex4Val_encode c.toNat (by omega)]
      rw [if_neg (by omega), if_neg (by omega), Char.ofNat_toNat]
    · rw [if_neg h9]
      show parseJStr (n + 1)
        ('\\' :: 'u' :: _ :: _ :: _ :: _ :: ('\\' :: 'u' :: _ :: _ :: _ :: _ :: l)) = _
      simp only [parseJStr_u,
        hex4Val_encode (0xd800 + (c.toNat - 0x10000) / 0x400) (by omega)]
      rw [if_pos (by exact ⟨by omega, by omega⟩)]
      simp only [hex4Val_encode (0xdc00 + (c.toNat - 0x10000) % 0x400) (by omega)]
      rw [if_pos (by exact ⟨by omega, by omega⟩)]
      have hrecon : 0x10000 + (0xd800 + (c.toNat - 0x10000) / 0x400 - 0xd800) * 0x400
          + (0xdc00 + (c.toNat - 0x10000) % 0x400 - 0xdc00) = c.toNat := by omega
      rw [hrecon, Char.ofNat_toNat]
  · rw [if_neg h8]
    show parseJStr (n + 1) (c :: l) = _
    rw [parseJStr.eq_def]
    simp only [if_neg h2, if_neg h1]

/-- The string-body round trip: parsing an escaped body up to the closing
quote recovers the original characters, for any ample fuel. -/
theorem parseJStr_escString : ∀ (cs : List Char) (n : Nat) (rest : List Char),
    cs.length + 1 ≤ n →
    parseJStr n (escString cs ++ '"' :: rest) = some (cs, rest) := by
  intro cs
  induction cs with
  | nil =>
    intro n rest hn
    match n, hn with
    | m + 1, _ => rw [parseJStr.eq_def]; rfl
  | cons c cs ih =>
    intro n rest hn
    match n, hn with
    | m + 1, hm =>
      rw [escString, List.append_assoc, parseJStr_escChar,
        ih m rest (by simp only [List.length_cons] at hm; omega)]
      rfl

/-- Escaping cannot shorten a string. -/
theorem escString_length : ∀ cs : List Char, cs.length ≤ (escString cs).length := by
  intro cs
  induction cs with
  | nil => simp [escString]
  | cons c cs ih =>
    have h1 : 1 ≤ (escChar c).length := by
      rw [escChar]
      split_ifs <;> simp [uEsc, hex4Chars]
    rw [escString]
    simp only [List.length_append, List.length_cons]
    omega

theorem digitChar_isDigit : ∀ k, k < 10 → (Char.ofNat (48 + k)).isDigit = true := by decide

theorem digitChar_val : ∀ k, k < 10 → (Char.ofNat (48 + k)).toNat - 48 = k := by decide

theorem natChars_all_digit : ∀ n, ∀ c ∈ natChars n, c.isDigit = true := by
  intro n
  induction n using Nat.strongRecOn with
  | _ n ih =>
    intro c hc
    rw [natChars] at hc
    by_cases h : n < 10
    · rw [dif_pos h] at hc
      rw [List.mem_singleton] at hc
      subst hc
      exact digitChar_isDigit n h
    · rw [dif_neg h] at hc
      rw [List.mem_append, List.mem_singleton] at hc
      rcases hc with hc | hc
      · exact ih (n / 10) (Nat.div_lt_self (by omega) (by omega)) c hc
      · subst hc
        exact digitChar_isDigit _ (Nat.mod_lt _ (by omega))

theorem natChars_ne_nil (n : Nat) : natChars n ≠ [] := by
  rw [natChars]
  by_cases h : n < 10
  · rw [dif_pos h]; simp
  · rw [dif_neg h]; simp

theorem natChars_cons (n : Nat) : ∃ c t, natChars n = c :: t ∧ c.isDigit = true := by
  cases hm : natChars n with
  | nil => exact absurd hm (natChars_ne_nil n)
  | cons c t =>
    exact ⟨c, t, rfl, natChars_all_digit n c (hm ▸ List.mem_cons_self c t)⟩

theorem foldl_natChars (n : Nat) : ∀ a : Nat,
    (natChars n).foldl (fun a c => a * 10 + (c.toNat - 48)) a
      = a * 10 ^ (natChars n).length + n := by
  induction n using Nat.strongRecOn with
  | _ n ih =>
    intro a
    rw [natChars]
    by_cases h : n < 10
    · rw [dif_pos h]
      simp only [List.foldl_cons, List.foldl_nil, List.length_cons, List.length_nil,
        pow_one, zero_add]
      rw [digitChar_val n h]
    · rw [dif_neg h]
      rw [List.foldl_append, ih (n / 10) (Nat.div_lt_self (by omega) (by omega)) a]
      simp only [List.foldl_cons, List.foldl_nil, List.length_append, List.length_cons,
        List.length_nil, zero_add]
      rw [digitChar_val _ (Nat.mod_lt _ (by omega)), pow_succ, ← Nat.mul_assoc]
      generalize a * 10 ^ (natChars (n / 10)).length = X
      omega

theorem jDigitsVal_natChars (n : Nat) : jDigitsVal (natChars n) = n := by
  rw [jDigitsVal, foldl_natChars n 0]
  simp

theorem noDigitHead_false {c : Char} {t : List Char} (h : noDigitHead (c :: t) = true) :
    c.isDigit = false := by
  rw [noDigitHead, Bool.not_eq_eq_eq_not, Bool.not_true] at h
  exact h

theorem takeWhile_digits : ∀ (ds r : List Char), (∀ c ∈ ds, c.isDigit = true) →
    noDigitHead r = true →
    (ds ++ r).takeWhile Char.isDigit = ds ∧ (ds ++ r).dropWhile Char.isDigit = r := by
  intro ds
  induction ds with
  | nil =>
    intro r _ hr
    cases r with
    | nil => exact ⟨rfl, rfl⟩
    | cons c t =>
      have hc := noDigitHead_false hr
      constructor
      · simp [List.takeWhile_cons, hc]
      · simp [List.dropWhile_cons, hc]
  | cons d ds ih =>
    intro r hds hr
    have hd : d.isDigit = true := hds d (List.mem_cons_self d ds)
    obtain ⟨ht, hdr⟩ := ih r (fun c hc => hds c (List.mem_cons_of_mem d hc)) hr
    constructor
    · simp [List.takeWhile_cons, hd, ht]
    · simp [List.dropWhile_cons, hd, hdr]

theorem parseJNat_natChars (m : Nat) (r : List Char) (hr : noDigitHead r = true) :
    parseJNat (natChars m ++ r) = some (m, r) := by
  obtain ⟨ht, hd⟩ := takeWhile_digits (natChars m) r (natChars_all_digit m) hr
  rw [parseJNat]
  simp only [ht, hd]
  rw [if_neg (natChars_ne_nil m), jDigitsVal_natChars]

theorem digit_ne_minus {c : Char} (h : c.isDigit = true) : ¬(c = '-') := by
  intro hc
  subst hc
  exact absurd h (by decide)

theorem parseJInt_intChars (n : ℤ) (r : List Char) (hr : noDigitHead r = true) :
    parseJInt (intChars n ++ r) = some (n, r) := by
  rw [intChars]
  by_cases hn : n < 0
  · rw [if_pos hn]
    show parseJInt ('-' :: (natChars n.natAbs ++ r)) = _
    rw [parseJInt, if_pos rfl, parseJNat_natChars _ _ hr]
    simp only [Option.map_some', Option.some.injEq, Prod.mk.injEq]
    exact ⟨by omega, trivial⟩
  · rw [if_neg hn]
    obtain ⟨c0, t0, hct, hc0⟩ := natChars_cons n.toNat
    rw [hct, List.cons_append, parseJInt, if_neg (digit_ne_minus hc0),
      ← List.cons_append, ← hct, parseJNat_natChars _ _ hr]
    simp only [Option.map_some', Option.some.injEq, Prod.mk.injEq]
    exact ⟨by omega, trivial⟩

theorem digit_not_ws {c : Char} (h : c.isDigit = true) : jIsWs c = false := by
  rw [jIsWs]
  simp only [Bool.or_eq_false_iff, decide_eq_false_iff_not]
  refine ⟨⟨⟨?_, ?_⟩, ?_⟩, ?_⟩ <;> (rintro rfl; exact absurd h (by decide))

/-- The first character of a rendered integer settles the parser's
dispatch. -/
theorem intChars_head (m : ℤ) : ∃ c t, intChars m = c :: t
    ∧ jIsWs c = false ∧ c ≠ '"' ∧ c ≠ 't' ∧ c ≠ 'f' ∧ c ≠ 'n' ∧ c ≠ '[' ∧ c ≠ '{'
    ∧ c ≠ ']' ∧ (c = '-' || c.isDigit) = true := by
  rw [intChars]
  by_cases hm : m < 0
  · rw [if_pos hm]
    exact ⟨'-', _, rfl, by decide, by decide, by decide, by decide, by decide, by decide,
      by decide, by decide, by decide⟩
  · rw [if_neg hm]
    obtain ⟨c0, t0, hct, hc0⟩ := natChars_cons m.toNat
    rw [hct]
    refine ⟨c0, t0, rfl, digit_not_ws hc0, ?_, ?_, ?_, ?_, ?_, ?_, ?_, by simp [hc0]⟩
    all_goals (rintro rfl; exact absurd hc0 (by decide))

/-- Every rendered value starts with a non-whitespace character that is not
a closing bracket. -/
theorem dumpsV_head (v : JValue) :
    ∃ c t, dumpsV v = c :: t ∧ jIsWs c = false ∧ c ≠ ']' := by
  cases v with
  | null => exact ⟨'n', ['u', 'l', 'l'], by simp [dumpsV], by decide, by decide⟩
  | bool b =>
    cases b with
    | true => exact ⟨'t', ['r', 'u', 'e'], by simp [dumpsV], by decide, by decide⟩
    | false => exact ⟨'f', ['a', 'l', 's', 'e'], by simp [dumpsV], by decide, by decide⟩
  | int m =>
    obtain ⟨c0, t0, hct, hws, _, _, _, _, _, _, hrb, _⟩ := intChars_head m
    exact ⟨c0, t0, by simp [dumpsV, hct], hws, hrb⟩
  | str s =>
    exact ⟨'"', escString s.data ++ ['"'], by simp [dumpsV], by decide, by decide⟩
  | arr xs =>
    cases xs with
    | nil => exact ⟨'[', [']'], by simp [dumpsV], by decide, by decide⟩
    | cons x xs =>
      exact ⟨'[', dumpsV x ++ (dumpsArrTail xs ++ [']']), by simp [dumpsV], by decide, by decide⟩
  | obj kvs =>
    cases kvs with
    | nil => exact ⟨'{', ['}'], by simp [dumpsV], by decide, by decide⟩
    | cons kv kvs =>
      exact ⟨'{', dumpsKV kv ++ (dumpsObjTail kvs ++ ['}']), by simp [dumpsV], by decide,
        by decide⟩

theorem jSkipWs_cons {c : Char} (h : jIsWs c = false) (l : List Char) :
    jSkipWs (c :: l) = c :: l := by
  rw [jSkipWs, h]
  rfl

theorem jSkipWs_dumpsV (v : JValue) (x : List Char) :
    jSkipWs (dumpsV v ++ x) = dumpsV v ++ x := by
  obtain ⟨c, t, hct, hws, _⟩ := dumpsV_head v
  rw [hct, List.cons_append, jSkipWs_cons hws]

theorem parseJV_space (n : Nat) (h : 1 ≤ n) (l : List Char) :
    parseJV n (' ' :: l) = parseJV n l := by
  match n, h with
  | m + 1, _ =>
    rw [parseJV.eq_def, parseJV.eq_def]
    rfl

theorem parseJItems_space (n : Nat) (h : 1 ≤ n) (l : List Char) :
    parseJItems n (' ' :: l) = parseJItems n l := by
  match n, h with
  | m + 1, _ =>
    rw [parseJItems.eq_def, parseJItems.eq_def]
    rfl

theorem parseJMembers_space (n : Nat) (h : 1 ≤ n) (l : List Char) :
    parseJMembers n (' ' :: l) = parseJMembers n l := by
  match n, h with
  | m + 1, _ =>
    rw [parseJMembers.eq_def, parseJMembers.eq_def]
    rfl

theorem parseJItems_close (n : Nat) (h : 1 ≤ n) (r : List Char) :
    parseJItems n (']' :: r) = some ([], r) := by
  match n, h with
  | m + 1, _ =>
    rw [parseJItems.eq_def]
    rfl

theorem parseJMembers_close (n : Nat) (h : 1 ≤ n) (r : List Char) :
    parseJMembers n ('}' :: r) = some ([], r) := by
  match n, h with
  | m + 1, _ =>
    rw [parseJMembers.eq_def]
    rfl

theorem noDigitHead_arrTail (xs : List JValue) (rest : List Char) :
    noDigitHead (dumpsArrTail xs ++ ']' :: rest) = true := by
  cases xs with
  | nil => simp [dumpsArrTail, noDigitHead]
  | cons x xs => simp [dumpsArrTail, noDigitHead]

theorem noDigitHead_objTail (kvs : List (String × JValue)) (rest : List Char) :
    noDigitHead (dumpsObjTail kvs ++ '}' :: rest) = true := by
  cases kvs with
  | nil => simp [dumpsObjTail, noDigitHead]
  | cons kv kvs => simp [dumpsObjTail, noDigitHead]

theorem sizeJ_pos (v : JValue) : 1 ≤ sizeJ v := by
  cases v <;> simp [sizeJ] <;> omega

/-- The parser's dispatch on a number's first character (step lemma). -/
theorem parseJV_int_step (n : Nat) (c : Char) (t : List Char)
    (hws : jIsWs c = false) (hq : c ≠ '"') (ht : c ≠ 't') (hf : c ≠ 'f') (hn : c ≠ 'n')
    (hbk : c ≠ '[') (hbc : c ≠ '{') (hnum : (c = '-' || c.isDigit) = true) :
    parseJV (n + 1) (c :: t) = (parseJInt (c :: t)).map (fun p => (JValue.int p.1, p.2)) := by
  rw [parseJV.eq_def]
  simp only [jSkipWs_cons hws, hq, ht, hf, hn, hbk, hbc, hnum, if_false, if_true,
    ite_false, ite_true]

/-- The parser's array-elements loop after its closing-bracket test (step
lemma). -/
theorem parseJItems_step (n : Nat) (c : Char) (t : List Char) (hws : jIsWs c = false)
    (hrb : c ≠ ']') :
    parseJItems (n + 1) (c :: t) =
      (match parseJV n (c :: t) with
       | Option.none => Option.none
       | some (v, r1) =>
         match jSkipWs r1 with
         | ',' :: r2 =>
           match parseJItems n r2 with
           | some (xs, r3) => some (v :: xs, r3)
           | Option.none => Option.none
         | ']' :: r2 => some ([v], r2)
         | _ => Option.none) := by
  rw [parseJItems.eq_def]
  simp only [jSkipWs_cons hws, hrb, if_false, ite_false]

/-- The parser's object-member loop at a key's opening quote (step lemma). -/
theorem parseJMembers_step (n : Nat) (l : List Char) :
    parseJMembers (n + 1) ('"' :: l) =
      (match parseJStr (l.length + 1) l with
       | Option.none => Option.none
       | some (k, r1) =>
         match jSkipWs r1 with
         | ':' :: r2 =>
           match parseJV n r2 with
           | Option.none => Option.none
           | some (v, r3) =>
             match jSkipWs r3 with
             | ',' :: r4 =>
               match parseJMembers n r4 with
               | some (kvs, r5) => some ((String.mk k, v) :: kvs, r5)
               | Option.none => Option.none
             | '}' :: r4 => some ([(String.mk k, v)], r4)
             | _ => Option.none
         | _ => Option.none) := by
  rw [parseJMembers.eq_def]
  rfl

/-- The complete round trip: with enough fuel the parser inverts the
renderer, for any remainder that cannot extend a number token. -/
theorem parse_dumps : ∀ n : Nat,
    (∀ v rest, sizeJ v ≤ n → noDigitHead rest = true →
        parseJV n (dumpsV v ++ rest) = some (v, rest))
    ∧ (∀ x xs rest, 1 + sizeJ x + sizeArr xs ≤ n →
        parseJItems n (dumpsV x ++ (dumpsArrTail xs ++ (']' :: rest))) = some (x :: xs, rest))
    ∧ (∀ k w kvs rest, 1 + sizeJ w + sizeObj kvs ≤ n →
        parseJMembers n (dumpsKV (k, w) ++ (dumpsObjTail kvs ++ ('}' :: rest)))
          = some ((k, w) :: kvs, rest)) := by
  intro n
  induction n with
  | zero =>
    refine ⟨fun v rest hs _ => absurd hs (by have := sizeJ_pos v; omega),
      fun x xs rest hs => absurd hs (by have := sizeJ_pos x; omega),
      fun k w kvs rest hs => absurd hs (by have := sizeJ_pos w; omega)⟩
  | succ n ih =>
    obtain ⟨ihV, ihI, ihM⟩ := ih
    refine ⟨?_, ?_, ?_⟩
    · intro v rest hs hnd
      cases v with
      | null =>
        simp only [dumpsV, List.cons_append, List.nil_append]
        rw [parseJV.eq_def]
        rfl
      | bool b =>
        cases b with
        | false =>
          simp only [dumpsV, List.cons_append, List.nil_append]
          rw [parseJV.eq_def]
          rfl
        | true =>
          simp only [dumpsV, List.cons_append, List.nil_append]
          rw [parseJV.eq_def]
          rfl
      | int m =>
        obtain ⟨c0, t0, hct, hws, hq, htc, hfc, hnc, hbk, hbc, _, hnum⟩ := intChars_head m
        simp only [dumpsV]
        rw [hct, List.cons_append,
          parseJV_int_step n c0 (t0 ++ rest) hws hq htc hfc hnc hbk hbc hnum,
          ← List.cons_append, ← hct, parseJInt_intChars m rest hnd]
        rfl
      | str s =>
        simp only [dumpsV, List.cons_append, List.append_assoc, List.singleton_append]
        rw [parseJV.eq_def]
        show (parseJStr ((escString s.data ++ '"' :: rest).length + 1)
            (escString s.data ++ '"' :: rest)).map
            (fun p => (JValue.str (String.mk p.1), p.2)) = some (JValue.str s, rest)
        rw [parseJStr_escString s.data _ rest (by
          have := escString_length s.data
          simp only [List.length_append, List.length_cons]
          omega)]
        rfl
      | arr xs =>
        cases xs with
        | nil =>
          simp only [dumpsV, List.cons_append, List.nil_append]
          rw [parseJV.eq_def]
          show (parseJItems n (']' :: rest)).map (fun p => (JValue.arr p.1, p.2))
            = some (JValue.arr [], rest)
          rw [parseJItems_close n (by simp only [sizeJ, sizeArr] at hs; omega) rest]
          rfl
        | cons x xs =>
          simp only [dumpsV, List.cons_append, List.append_assoc, List.singleton_append]
          rw [parseJV.eq_def]
          show (parseJItems n (dumpsV x ++ (dumpsArrTail xs ++ (']' :: rest)))).map
            (fun p => (JValue.arr p.1, p.2)) = some (JValue.arr (x :: xs), rest)
          rw [ihI x xs rest (by simp only [sizeJ, sizeArr] at hs; omega)]
          rfl
      | obj kvs =>
        cases kvs with
        | nil =>
          simp only [dumpsV, List.cons_append, List.nil_append]
          rw [parseJV.eq_def]
          show (parseJMembers n ('}' :: rest)).map (fun p => (JValue.obj p.1, p.2))
            = some (JValue.obj [], rest)
          rw [parseJMembers_close n (by simp only [sizeJ, sizeObj] at hs; omega) rest]
          rfl
        | cons kv kvs =>
          obtain ⟨k, w⟩ := kv
          simp only [dumpsV, List.cons_append, List.append_assoc, List.singleton_append]
          rw [parseJV.eq_def]
          show (parseJMembers n (dumpsKV (k, w) ++ (dumpsObjTail kvs ++ ('}' :: rest)))).map
            (fun p => (JValue.obj p.1, p.2)) = some (JValue.obj ((k, w) :: kvs), rest)
          rw [ihM k w kvs rest (by simp only [sizeJ, sizeObj] at hs; omega)]
          rfl
    · intro x xs rest hs
      obtain ⟨c0, t0, hct, hws, hrb⟩ := dumpsV_head x
      have hx : sizeJ x ≤ n := by omega
      cases xs with
      | nil =>
        simp only [dumpsArrTail, List.nil_append]
        rw [hct, List.cons_append, parseJItems_step n c0 _ hws hrb,
          ← List.cons_append, ← hct]
        simp only [ihV x (']' :: rest) hx (by rfl),
          jSkipWs_cons (show jIsWs ']' = false by decide)]
      | cons y ys =>
        simp only [dumpsArrTail, List.cons_append, List.append_assoc]
        rw [hct, List.cons_append, parseJItems_step n c0 _ hws hrb,
          ← List.cons_append, ← hct]
        have hny : 1 + sizeJ y + sizeArr ys ≤ n := by
          simp only [sizeArr] at hs
          have := sizeJ_pos x
          omega
        simp only [ihV x (',' :: ' ' :: (dumpsV y ++ (dumpsArrTail ys ++ (']' :: rest)))) hx
            (by rfl),
          jSkipWs_cons (show jIsWs ',' = false by decide)]
        rw [parseJItems_space n (by omega), ihI y ys rest hny]
    · intro k w kvs rest hs
      have hw : sizeJ w ≤ n := by omega
      have hn1 : 1 ≤ n := by have := sizeJ_pos w; omega
      cases kvs with
      | nil =>
        simp only [dumpsKV, dumpsObjTail, List.nil_append, List.cons_append,
          List.append_assoc, List.singleton_append]
        rw [parseJMembers_step]
        have hkey := parseJStr_escString k.data
          ((escString k.data ++ '"' :: ':' :: ' ' :: (dumpsV w ++ '}' :: rest)).length + 1)
          (':' :: ' ' :: (dumpsV w ++ '}' :: rest))
          (by have := escString_length k.data
              simp only [List.length_append, List.length_cons]
              omega)
        simp only [List.append_assoc, List.cons_append] at hkey
        simp only [hkey, jSkipWs_cons (show jIsWs ':' = false by decide)]
        rw [parseJV_space n hn1]
        simp only [ihV w ('}' :: rest) hw (by rfl),
          jSkipWs_cons (show jIsWs '}' = false by decide)]
      | cons kv2 kvs2 =>
        obtain ⟨k2, w2⟩ := kv2
        have hnm : 1 + sizeJ w2 + sizeObj kvs2 ≤ n := by
          simp only [sizeObj] at hs
          have := sizeJ_pos w
          omega
        simp only [dumpsKV, dumpsObjTail, List.nil_append, List.cons_append,
          List.append_assoc, List.singleton_append]
        rw [parseJMembers_step]
        have hkey := parseJStr_escString k.data
          ((escString k.data ++ '"' :: ':' :: ' ' ::
              (dumpsV w ++ ',' :: ' ' ::
                ('"' :: (escString k2.data ++ '"' :: ':' :: ' ' ::
                  (dumpsV w2 ++ (dumpsObjTail kvs2 ++ '}' :: rest)))))).length + 1)
          (':' :: ' ' :: (dumpsV w ++ ',' :: ' ' ::
            ('"' :: (escString k2.data ++ '"' :: ':' :: ' ' ::
              (dumpsV w2 ++ (dumpsObjTail kvs2 ++ '}' :: rest))))))
          (by have := escString_length k.data
              simp only [List.length_append, List.length_cons]
              omega)
        simp only [List.append_assoc, List.cons_append] at hkey
        simp only [hkey, jSkipWs_cons (show jIsWs ':' = false by decide)]
        rw [parseJV_space n hn1]
        simp only [ihV w (',' :: ' ' ::
            ('"' :: (escString k2.data ++ '"' :: ':' :: ' ' ::
              (dumpsV w2 ++ (dumpsObjTail kvs2 ++ '}' :: rest))))) hw (by rfl),
          jSkipWs_cons (show jIsWs ',' = false by decide)]
        rw [parseJMembers_space n hn1]
        have hm2 := ihM k2 w2 kvs2 rest hnm
        simp only [dumpsKV, List.cons_append, List.append_assoc] at hm2
        rw [hm2]

mutual
/-- The parsing fuel a value needs is amply covered by twice its rendered
length. -/
theorem sizeJ_le_dumps : ∀ v : JValue, sizeJ v ≤ 2 * (dumpsV v).length
  | .null => by simp [sizeJ, dumpsV]
  | .bool b => by cases b <;> simp [sizeJ, dumpsV]
  | .int m => by
    obtain ⟨c, t, hct, _⟩ := dumpsV_head (JValue.int m)
    simp [sizeJ, hct]
    omega
  | .str s => by simp [sizeJ, dumpsV]; omega
  | .arr [] => by simp [sizeJ, sizeArr, dumpsV]
  | .arr (x :: xs) => by
    have h1 := sizeJ_le_dumps x
    have h2 := sizeArr_le_dumps xs
    simp only [sizeJ, sizeArr, dumpsV, List.length_cons, List.length_append]
    omega
  | .obj [] => by simp [sizeJ, sizeObj, dumpsV]
  | .obj ((k, w) :: kvs) => by
    have h1 := sizeJ_le_dumps w
    have h2 := sizeObj_le_dumps kvs
    simp only [sizeJ, sizeObj, dumpsV, dumpsKV, List.length_cons, List.length_append]
    omega
theorem sizeArr_le_dumps : ∀ xs : List JValue, sizeArr xs ≤ 2 * (dumpsArrTail xs).length
  | [] => by simp [sizeArr, dumpsArrTail]
  | x :: xs => by
    have h1 := sizeJ_le_dumps x
    have h2 := sizeArr_le_dumps xs
    simp only [sizeArr, dumpsArrTail, List.length_cons, List.length_append]
    omega
theorem sizeObj_le_dumps :
    ∀ kvs : List (String × JValue), sizeObj kvs ≤ 2 * (dumpsObjTail kvs).length
  | [] => by simp [sizeObj, dumpsObjTail]
  | (k, w) :: kvs => by
    have h1 := sizeJ_le_dumps w
    have h2 := sizeObj_le_dumps kvs
    simp only [sizeObj, dumpsObjTail, dumpsKV, List.length_cons, List.length_append]
    omega
end

/-- `jparse` on an explicitly built string (definitional). -/
theorem jparse_mk (l : List Char) :
    jparse (String.mk l) =
      (match parseJV (2 * l.length + 2) l with
       | some (v, r) => if jSkipWs r = [] then some v else Option.none
       | Option.none => Option.none) := rfl

/-- Parsing a dumped mapping recovers it exactly. -/
theorem jparse_to_json (data : List (String × JValue)) :
    jparse (to_json data) = some (JValue.obj data) := by
  have hfuel : sizeJ (JValue.obj data) ≤ 2 * (dumpsV (JValue.obj data)).length + 2 := by
    have := sizeJ_le_dumps (JValue.obj data)
    omega
  have h := (parse_dumps (2 * (dumpsV (JValue.obj data)).length + 2)).1
    (JValue.obj data) [] hfuel rfl
  rw [List.append_nil] at h
  rw [to_json, jparse_mk]
  simp only [h]
  rfl

/-! ## Characterisation of the separator insertion -/

theorem str_data_inj {a b : String} (h : a.data = b.data) : a = b := by
  have := congrArg String.mk h
  simpa using this

theorem data_join (L : List String) : (String.join L).data = (L.map String.data).flatten := by
  rw [String.join]
  suffices h : ∀ acc : String,
      (L.foldl (fun r s => r ++ s) acc).data = acc.data ++ (L.map String.data).flatten by
    simpa using h ""
  induction L with
  | nil => intro acc; simp
  | cons s L ih => intro acc; simp [ih]

theorem data_append (x y : String) : (x ++ y).data = x.data ++ y.data := rfl

theorem data_singleton (c : Char) : (String.singleton c).data = [c] := rfl

/-- Index positions three apart behave alike for the separator test (away
from position zero). -/
theorem groupPiece_shift (sep : String) : ∀ (t : List Char) (k j : Nat), k = j + 3 → 1 ≤ j →
    (List.enumFrom k t).map
        (fun p => String.singleton p.2 ++ (if p.1 ≠ 0 ∧ p.1 % 3 = 0 then sep else ""))
      = (List.enumFrom j t).map
        (fun p => String.singleton p.2 ++ (if p.1 ≠ 0 ∧ p.1 % 3 = 0 then sep else "")) := by
  intro t
  induction t with
  | nil => intro k j _ _; simp
  | cons x t ih =>
    intro k j hk hj
    subst hk
    simp only [List.enumFrom_cons, List.map_cons]
    rw [ih (j + 3 + 1) (j + 1) (by omega) (by omega)]
    have hc : (j + 3 ≠ 0 ∧ (j + 3) % 3 = 0) ↔ (j ≠ 0 ∧ j % 3 = 0) := by
      constructor <;> (rintro ⟨h1, h2⟩; exact ⟨by omega, by omega⟩)
    rw [if_congr hc rfl rfl]

/-- A string of at most three characters is not grouped at all. -/
theorem groupSep_short (sep : String) (s : String) (hs : s.length ≤ 3) :
    groupSep sep s = s := by
  apply str_data_inj
  rw [groupSep, data_join]
  have hlen : s.data.length ≤ 3 := hs
  rcases hd : s.data with _ | ⟨a, _ | ⟨b, _ | ⟨c, _ | ⟨d, l⟩⟩⟩⟩
  · simp
  · simp [List.enum_eq_enumFrom, List.enumFrom_cons, data_append, data_singleton]
  · simp [List.enum_eq_enumFrom, List.enumFrom_cons, data_append, data_singleton]
  · simp [List.enum_eq_enumFrom, List.enumFrom_cons, data_append, data_singleton]
  · rw [hd] at hlen
    simp at hlen

/-- Appending three characters to a nonempty string groups them off behind
one separator: the separator is inserted every three characters counting
from the last. -/
theorem groupSep_peel3 (sep : String) (s : String) (a b c : Char) (hs : s ≠ "") :
    groupSep sep (s ++ String.mk [a, b, c]) = groupSep sep s ++ sep ++ String.mk [a, b, c] := by
  apply str_data_inj
  obtain ⟨h0, t0, hrev⟩ : ∃ h0 t0, s.data.reverse = h0 :: t0 := by
    cases hd : s.data.reverse with
    | nil =>
      exfalso
      apply hs
      apply str_data_inj
      have := congrArg List.reverse hd
      simpa using this
    | cons h0 t0 => exact ⟨h0, t0, rfl⟩
  rw [groupSep, groupSep,
    show (s ++ String.mk [a, b, c]).data = s.data ++ [a, b, c] from rfl]
  simp only [List.reverse_append, List.reverse_cons, List.reverse_nil, List.nil_append,
    List.cons_append, hrev]
  rw [List.enum_eq_enumFrom, List.enum_eq_enumFrom]
  simp only [List.enumFrom_cons, List.map_cons]
  rw [groupPiece_shift sep t0 (0 + 1 + 1 + 1 + 1) (0 + 1) (by omega) (by omega)]
  simp only [data_append, data_join, data_singleton, List.map_append, List.map_cons,
    List.map_nil, List.reverse_cons, List.flatten_append, List.flatten_cons,
    List.flatten_nil, List.append_assoc, List.cons_append, List.nil_append,
    apply_ite String.data]
  norm_num

/-! ## Claim theorems -/

/-- Claim C1 (counterexample): `yes_no` applied to the string `"oops"`
interpolates the text `"oops"`, which is not in the fixed vocabulary, so the
text segment does not always originate from the fixed vocabulary. -/
theorem c1_yes_no_counterexample :
    yes_no (PyValue.str "oops") true false false false = mkSpan "black" "oops"
    ∧ ¬("oops" ∈ (["", "yes", "no", "on", "off"] : List String)) :=
  ⟨rfl, by decide⟩

/-- Claim C1 (amended): every span returned by `yes_no` carries a colour from
the fixed set `{black, green, red}`; whenever the input is `True`, `False` or
`None`, the interpolated text segment comes from the fixed vocabulary
`{"", "yes", "no", "on", "off"}`; any other input is interpolated via its
string form. -/
theorem c1_yes_no_vocab (v : PyValue) (ic hn nif oo : Bool) :
    ∃ clr txt, yes_no v ic hn nif oo = mkSpan clr txt
      ∧ clr ∈ (["black", "green", "red"] : List String)
      ∧ ((isNone v = true ∨ isTrueV v = true ∨ isFalseV v = true) →
          txt ∈ (["", "yes", "no", "on", "off"] : List String)) := by
  refine ⟨(if ic then (yesNoTextColor v hn nif oo).2 else "black"),
    (yesNoTextColor v hn nif oo).1, rfl, ?_, ?_⟩
  · cases ic with
    | false => simp
    | true =>
      simp only [if_true]
      cases v with
      | bool b =>
        cases b <;> cases nif <;> cases hn <;> cases oo <;>
          simp [yesNoTextColor, isTrueV, isFalseV, isNone]
      | _ =>
        cases nif <;> cases hn <;> cases oo <;>
          simp [yesNoTextColor, isTrueV, isFalseV, isNone]
  · intro hv
    unfold yesNoTextColor
    cases v with
    | none =>
      cases nif <;> cases hn <;> cases oo <;> simp [isNone, isTrueV, isFalseV]
    | bool b =>
      cases b <;> cases nif <;> cases hn <;> cases oo <;>
        simp [isNone, isTrueV, isFalseV]
    | int n => simp [isNone, isTrueV, isFalseV] at hv
    | float q => simp [isNone, isTrueV, isFalseV] at hv
    | str s => simp [isNone, isTrueV, isFalseV] at hv
    | list xs => simp [isNone, isTrueV, isFalseV] at hv

theorem c1_yes_no_vocab_witness :
    ∃ clr txt, yes_no (PyValue.bool true) true false false false = mkSpan clr txt
      ∧ clr ∈ (["black", "green", "red"] : List String)
      ∧ ((isNone (PyValue.bool true) = true ∨ isTrueV (PyValue.bool true) = true
            ∨ isFalseV (PyValue.bool true) = true) →
          txt ∈ (["", "yes", "no", "on", "off"] : List String)) :=
  c1_yes_no_vocab (PyValue.bool true) true false false false

/-- Claim C2 (counterexample): a negative input is not grouped at all: the
code returns the rounded string `"-123456.0"`, while the claimed
truncate-then-group algorithm would produce `"-,123,456"`. -/
theorem c2_nformat_negative_counterexample :
    nformat (NValue.num (-123456)) "" "" "," false 2 = some "-123456.0"
    ∧ groupSep "," (toString (pyTrunc (-123456 : ℚ))) = "-,123,456"
    ∧ ("-123456.0" : String) ≠ "-,123,456" :=
  ⟨by decide, by decide, by decide⟩

/-- Claim C2 (amended): a negative coercible input never reaches the
grouping branch (which requires the value to exceed 1000); it is rounded to
`digits` decimal places with no separator applied, like every other value
that is at most 1000. -/
theorem c2_nformat_negative (v : NValue) (q : ℚ) (pre suf sep : String) (hz : Bool) (d : ℤ)
    (hc : pyCoerce v = some q) (hneg : q < 0) :
    nformat v pre suf sep hz d = some (pre ++ reprScaled (pyRoundScaled q d) d ++ suf) := by
  rw [nformat_coerced v q pre suf sep hz d hc, if_neg (by linarith), if_neg (by linarith)]

theorem c2_nformat_negative_witness :
    nformat (NValue.num (-5)) "" "" "," false 2 = some "-5.0" := by
  rw [c2_nformat_negative (NValue.num (-5)) (-5) "" "" "," false 2 (by decide) (by decide)]
  decide

/-- Claim C3: `nformat` branches exactly at 1000: above it the value is
truncated toward zero and grouped with the separator (`digits` ignored); at
or below it (and nonzero) the value is rounded to `digits` places with no
separator; at the boundary, `nformat(1000, digits := 2) = "1000.0"` and
`nformat(1000.01, separator := ",") = "1,000"`. The grouping `groupSep`
itself inserts the separator every three characters counting from the
least-significant end: a string of at most three characters is unchanged,
and appending three characters to a nonempty string appends one separator
followed by those three characters. -/
theorem c3_nformat_branch :
    (∀ v q pre suf sep hz d, pyCoerce v = some q → 1000 < q →
        nformat v pre suf sep hz d = some (pre ++ groupSep sep (toString (pyTrunc q)) ++ suf))
    ∧ (∀ v q pre suf sep hz d, pyCoerce v = some q → q ≠ 0 → q ≤ 1000 →
        nformat v pre suf sep hz d = some (pre ++ reprScaled (pyRoundScaled q d) d ++ suf))
    ∧ nformat (NValue.num 1000) "" "" "," false 2 = some "1000.0"
    ∧ nformat (NValue.num (100001/100)) "" "" "," false 2 = some "1,000"
    ∧ (∀ sep s, s.length ≤ 3 → groupSep sep s = s)
    ∧ (∀ sep s a b c, s ≠ "" →
        groupSep sep (s ++ String.mk [a, b, c])
          = groupSep sep s ++ sep ++ String.mk [a, b, c]) := by
  refine ⟨?_, ?_, by decide, by decide, groupSep_short, groupSep_peel3⟩
  · intro v q pre suf sep hz d hc hgt
    rw [nformat_coerced v q pre suf sep hz d hc, if_neg (by linarith), if_pos hgt]
  · intro v q pre suf sep hz d hc hne hle
    rw [nformat_coerced v q pre suf sep hz d hc, if_neg hne, if_neg (by linarith)]

theorem c3_nformat_branch_witness :
    nformat (NValue.num 1234) "" "" "," false 2 = some "1,234"
    ∧ nformat (NValue.num (1235/10)) "" "" "," false 1 = some "123.5"
    ∧ groupSep "," "999" = "999"
    ∧ groupSep "," ("1234" ++ String.mk ['5', '6', '7']) = "1,234,567" := by
  refine ⟨?_, ?_, ?_, ?_⟩
  · rw [c3_nformat_branch.1 (NValue.num 1234) 1234 "" "" "," false 2 rfl (by decide)]
    decide
  · rw [c3_nformat_branch.2.1 (NValue.num (1235/10)) (1235/10) "" "" "," false 1 rfl
      (by decide) (by decide)]
    decide
  · exact c3_nformat_branch.2.2.2.2.1 "," "999" (by decide)
  · rw [c3_nformat_branch.2.2.2.2.2 "," "1234" '5' '6' '7' (by decide)]
    decide

/-- Claim C4: an input coercing to exactly zero yields `pre ++ "0" ++ suf`
(`digits` and `separator` unused), or the empty string under `hide_zero`;
in particular `nformat 0 = "0"` and `nformat 0 (hide_zero := true) = ""`. -/
theorem c4_nformat_zero :
    (∀ v pre suf sep hz d, pyCoerce v = some 0 →
        nformat v pre suf sep hz d = (if hz = true then some "" else some (pre ++ "0" ++ suf)))
    ∧ nformat (NValue.num 0) "" "" "" false 2 = some "0"
    ∧ nformat (NValue.num 0) "" "" "" true 2 = some "" := by
  refine ⟨?_, by decide, by decide⟩
  intro v pre suf sep hz d hc
  rw [nformat_coerced v 0 pre suf sep hz d hc, if_pos rfl]

theorem c4_nformat_zero_witness :
    nformat (NValue.str "0.00") "$" " USD" "," false 5 = some "$0 USD" := by
  rw [c4_nformat_zero.1 (NValue.str "0.00") "$" " USD" "," false 5 (by decide)]
  decide

/-- Claim C5: `empty` collapses `None` and zero-length sequences to the
empty string and passes every other value through unchanged; in particular
`empty 0 = 0` and `empty false = false`. -/
theorem c5_empty :
    empty PyValue.none = PyValue.str ""
    ∧ (∀ v, isSeq v = true → seqLen v = 0 → empty v = PyValue.str "")
    ∧ (∀ v, isNone v = false → (isSeq v = true → seqLen v ≠ 0) → empty v = v)
    ∧ empty (PyValue.int 0) = PyValue.int 0
    ∧ empty (PyValue.bool false) = PyValue.bool false := by
  refine ⟨rfl, ?_, ?_, rfl, rfl⟩
  · intro v hseq hlen
    cases v <;> simp_all [empty, isSeq, seqLen, isNone]
  · intro v hnone hseq
    cases v <;> simp_all [empty, isSeq, seqLen, isNone]

theorem c5_empty_witness :
    empty (PyValue.list []) = PyValue.str ""
    ∧ empty (PyValue.str "") = PyValue.str ""
    ∧ empty (PyValue.str "a") = PyValue.str "a"
    ∧ empty (PyValue.list [PyValue.int 3]) = PyValue.list [PyValue.int 3] :=
  ⟨c5_empty.2.1 (PyValue.list []) rfl rfl,
   c5_empty.2.1 (PyValue.str "") rfl rfl,
   c5_empty.2.2.1 (PyValue.str "a") rfl (by intro _ h; exact absurd h (by decide)),
   c5_empty.2.2.1 (PyValue.list [PyValue.int 3]) rfl (by intro _ h; simp [seqLen] at h)⟩

/-- Claim C6: for the absent input, `timestamp` and `nformat` return the
empty string, and `nformat` also does so for the empty-string input,
whatever the formatting options. -/
theorem c6_absent_empty :
    (∀ (DT : Type) (st : DT → String → String) (ft : ℤ → DT) (fmt : String),
        timestamp st ft Option.none fmt = "")
    ∧ (∀ pre suf sep hz d, nformat NValue.none pre suf sep hz d = some "")
    ∧ (∀ pre suf sep hz d, nformat (NValue.str "") pre suf sep hz d = some "") := by
  refine ⟨fun _ _ _ _ => rfl, fun pre suf sep hz d => ?_, fun pre suf sep hz d => ?_⟩
  · simp [nformat]
  · simp [nformat, isEmptyStr]

/-- Claim C7: `nformat` raises (models as `Option.none`) exactly when the
input is non-absent, not the empty string, and fails numeric coercion; every
coercible input produces a defined string. -/
theorem c7_nformat_error_iff (v : NValue) (pre suf sep : String) (hz : Bool) (d : ℤ) :
    nformat v pre suf sep hz d = Option.none ↔
      (v ≠ NValue.none ∧ isEmptyStr v = false ∧ pyCoerce v = Option.none) := by
  constructor
  · intro h
    by_cases h0 : v = NValue.none ∨ isEmptyStr v = true
    · rw [nformat, if_pos h0] at h
      exact Option.noConfusion h
    · push_neg at h0
      refine ⟨h0.1, by simpa using h0.2, ?_⟩
      cases hc : pyCoerce v with
      | none => rfl
      | some q =>
        rw [nformat_coerced v q pre suf sep hz d hc] at h
        split_ifs at h
  · rintro ⟨h1, h2, h3⟩
    rw [nformat, if_neg (by simp [h1, h2]), h3]

/-- Claim C8: the error-raising helper always fails with exactly the
caller's message and never yields a value. -/
theorem c8_raise :
    (∀ msg, raise_ msg = Except.error msg) ∧ (∀ msg a, raise_ msg ≠ Except.ok a) :=
  ⟨fun _ => rfl, fun _ a => a.elim⟩

/-- Claim C10: in the at-most-1000 branch the result is the plain string of
the rounded value: the rendered number either ends in `".0"` or its last
character is not `'0'` (never zero-padded to `digits` places); in particular
`nformat 100 (digits := 2) = "100.0"` and
`nformat "500.50" (digits := 2) = "500.5"`. -/
theorem c10_nformat_no_padding :
    (∀ v q pre suf sep hz d, pyCoerce v = some q → q ≠ 0 → q ≤ 1000 →
        nformat v pre suf sep hz d = some (pre ++ reprScaled (pyRoundScaled q d) d ++ suf))
    ∧ (∀ n d, (∃ t, reprScaled n d = t ++ ".0")
        ∨ (reprScaled n d).data.getLast? ≠ some '0')
    ∧ nformat (NValue.num 100) "" "" "" false 2 = some "100.0"
    ∧ nformat (NValue.str "500.50") "" "" "" false 2 = some "500.5" := by
  refine ⟨?_, ?_, by decide, by decide⟩
  · intro v q pre suf sep hz d hc hne hle
    rw [nformat_coerced v q pre suf sep hz d hc, if_neg hne, if_neg (by linarith)]
  · intro n d
    simp only [reprScaled]
    by_cases hd : d ≤ 0
    · rw [if_pos hd]
      exact Or.inl ⟨toString (n * (10 : ℤ) ^ (-d).toNat), rfl⟩
    · rw [if_neg hd]
      set padded : List Char :=
        List.replicate (d.toNat - (toString (n.natAbs % 10 ^ d.toNat)).length) '0'
          ++ (toString (n.natAbs % 10 ^ d.toNat)).data with hpad
      by_cases hfrac : stripZeros padded = []
      · refine Or.inl ⟨(if n < 0 then "-" else "") ++ toString (n.natAbs / 10 ^ d.toNat), ?_⟩
        rw [hfrac, if_pos rfl]
        show String.mk _ = String.mk _
        apply congrArg String.mk
        simp
      · have hlast0 : (stripZeros padded).getLast? ≠ some '0' :=
          (stripZeros_getLast padded).resolve_left hfrac
        rw [if_neg hfrac]
        right
        intro hlast
        have hdata : ((if n < 0 then "-" else "") ++ toString (n.natAbs / 10 ^ d.toNat)
            ++ "." ++ String.mk (stripZeros padded)).data
            = ((if n < 0 then "-" else "") ++ toString (n.natAbs / 10 ^ d.toNat)
                ++ ".").data ++ stripZeros padded := rfl
        rw [hdata, List.getLast?_append_of_ne_nil _ hfrac] at hlast
        exact hlast0 hlast

/-- Claim C9: `to_json` serialises a string-keyed mapping to JSON text with
spaces after `:` and `,`, preserving the mapping's iteration order;
`to_json {} = "{}"`; and for every JSON-representable mapping, parsing the
output with a standard JSON parser yields a structure equal to the input
(round trip, which forces the order preservation). -/
theorem c9_to_json_roundtrip :
    to_json [] = "\x7b\x7d"
    ∧ (∀ data, jparse (to_json data) = some (JValue.obj data))
    ∧ to_json [("a", JValue.arr [JValue.int 1, JValue.int 2])]
        = "\x7b\"a\": [1, 2]\x7d" := by
  refine ⟨?_, jparse_to_json, ?_⟩
  · rw [to_json]
    simp only [dumpsV]
  · have h1 : intChars 1 = ['1'] := by
      rw [intChars, if_neg (by decide), show ((1 : ℤ).toNat) = 1 from rfl, natChars]
      decide
    have h2 : intChars 2 = ['2'] := by
      rw [intChars, if_neg (by decide), show ((2 : ℤ).toNat) = 2 from rfl, natChars]
      decide
    rw [to_json]
    simp only [dumpsV, dumpsKV, dumpsObjTail, dumpsArrTail, h1, h2]
    decide

theorem c10_nformat_no_padding_witness :
    nformat (NValue.num (1/2)) "" "" "" false 3 = some "0.5" := by
  rw [c10_nformat_no_padding.1 (NValue.num (1/2)) (1/2) "" "" "" false 3 rfl
    (by decide) (by decide)]
  decide

end MmJinja
